import Mathlib

/-!
# FUGL scene-graph exporter: a shallow embedding

FUGL is a Figma plugin that exports CUGL scene nodes as JSON. This file
embeds the pure computational core of the plugin in Lean 4 and proves
properties about it:

* the layer-name parser (`generateNode` in `src/generate/index.ts`);
* the constraint-to-anchor tables (`convertXAnchor` / `convertYAnchor` in
  `src/util.ts`);
* the stroke inset/outset adjustment of `genRectangle` / `genEllipse`
  (`shape.ts`);
* the rounded-rectangle and ellipse tessellators (`roundedRect`,
  `ellipse`, `curveSegs` in `shape.ts`);
* the float-layout children assembler (`genChildrenByFloat` in
  `children.ts`) together with `getCenter`;
* the anchored-layout key assignment (`genChildrenByAnchor`);
* the button slot scanner (`genButton` in `button.ts`);
* the image dedup table (`genImage` in `image.ts` and `generateTextures`
  in `index.ts`);
* the vertical coordinate flip used by `genLabel` and `genFrame`.

Numbers are modelled as rationals.  The transcendental helpers of the
geometry code (`Math.cos`, `Math.sin`, `Math.acos`, `Math.PI`) are taken
as abstract rational-valued oracles: every statement proved about the
tessellators holds for all values of these oracles, which covers in
particular their floating-point realizations up to rounding.  JavaScript
`Map` and plain-object records are modelled as association lists with
JavaScript's insert/overwrite semantics.

The file is organized as one block of definitions translated from the
TypeScript source, followed by one block of theorems.
-/

namespace FUGL

/-! ## Association lists with JavaScript object semantics

`result[key] = value` on a JS object keeps the position of the first
assignment to `key` and replaces its value; a fresh key is appended.
`Map.set` behaves the same way. -/

/-- JavaScript object assignment `m[k] = v`: replace the entry in place
if the key is present, append otherwise. -/
def upsert {α : Type} : List (String × α) → String → α → List (String × α)
  | [], k, v => [(k, v)]
  | p :: rest, k, v =>
    if p.1 = k then (k, v) :: rest else p :: upsert rest k v

/-- First value stored under key `k`, if any. -/
def getValue {α : Type} (m : List (String × α)) (k : String) : Option α :=
  match m with
  | [] => none
  | p :: rest => if p.1 = k then some p.2 else getValue rest k

/-- Key membership in a JS object (`k in m`, `m.has(k)`). -/
def hasKey {α : Type} (m : List (String × α)) (k : String) : Bool :=
  m.any (fun p => p.1 = k)

/-- Left-biased choice on options, used to state how later writes to the
same record key shadow earlier reads. -/
def orOption {α : Type} : Option α → Option α → Option α
  | some a, _ => some a
  | none, b => b

/-- Success test for an `Except` computation. -/
def exceptOk {ε α : Type} : Except ε α → Bool
  | Except.ok _ => true
  | Except.error _ => false

/-! ## Splitting on a character

`String.prototype.split` with a single-character separator.  JavaScript's
`"".split(":")` is `[""]` and a separator at either end produces an empty
component, which the structural recursion below reproduces exactly. -/

/-- `splitOnChar c l` splits `l` at every occurrence of `c`, exactly as
JavaScript `split` does for a one-character separator. -/
def splitOnChar (c : Char) : List Char → List (List Char)
  | [] => [[]]
  | x :: xs =>
    if x = c then
      [] :: splitOnChar c xs
    else
      match splitOnChar c xs with
      | [] => [[x]]
      | y :: ys => (x :: y) :: ys

/-! ## The layer-name parser

`generateNode` (src/generate/index.ts) splits a layer name on `":"`.
One component: the name must pass `isIdentifier`.  Two components: the
first becomes the (lower-cased) tag, the second the base name.  More
components: an error.  `isIdentifier` is the regular expression
`^[a-zA-Z_][a-zA-Z_0-9]*$`. -/

/-- Characters matched by `[a-zA-Z_]` (ASCII letters and underscore).
`Char.isAlpha` tests exactly the ASCII ranges used by the regex. -/
def identStart (c : Char) : Bool :=
  c.isAlpha || c = '_'

/-- Characters matched by `[a-zA-Z_0-9]`. -/
def identChar (c : Char) : Bool :=
  c.isAlpha || c = '_' || c.isDigit

/-- `isIdentifier` from src/generate/index.ts: the test
`/^[a-zA-Z_][a-zA-Z_0-9]*$/.test(str)`. -/
def isIdentifier (l : List Char) : Bool :=
  match l with
  | [] => false
  | c :: cs => identStart c && cs.all identChar

/-- Result of parsing a layer name: an optional tag (the lower-cased text
before a single colon) and the base name. -/
structure NameTag where
  tag : Option (List Char)
  base : List Char
deriving DecidableEq, Repr

/-- The name-parsing prelude of `generateNode`
(src/generate/index.ts, lines 70-89), on the characters of the name. -/
def parseName (l : List Char) : Except String NameTag :=
  match splitOnChar ':' l with
  | [n] =>
    if isIdentifier n then
      Except.ok { tag := none, base := n }
    else
      Except.error "is not a valid identifier"
  | [t, n] => Except.ok { tag := some (t.map Char.toLower), base := n }
  | _ => Except.error "has too many colons"

/-- Success predicate for the parser. -/
def parseOk (l : List Char) : Bool :=
  match parseName l with
  | Except.ok _ => true
  | Except.error _ => false

/-! ## Tag and base extraction used by the children assemblers

`genChildrenByFloat`, `genChildrenByAnchor` (children.ts) and `genButton`
(button.ts) re-split the raw layer name themselves:
`components = name.split(":")`, the base (`suffix`) is the last
component, and `genButton` reads the tag as `components[0]` only when
there are exactly two components (no lower-casing there). -/

/-- `components[components.length-1]` of `name.split(":")`. -/
def baseOf (s : String) : String :=
  String.mk ((splitOnChar ':' s.toList).getLastD [])

/-- The tag as `genButton` sees it: the first component when the split
has exactly two components, absent otherwise. -/
def tagOf (s : String) : Option String :=
  match splitOnChar ':' s.toList with
  | [t, _] => some (String.mk t)
  | _ => none

/-! ## Rounding (src/util.ts)

`roundToFixed` snaps tiny values to 0 and otherwise rounds to the given
number of decimal places with JavaScript `Math.round`, which is
`⌊x + 1/2⌋`. -/

/-- JavaScript `Math.round`. -/
def jsRound (x : ℚ) : ℤ :=
  Int.floor (x + 1/2)

/-- `roundToFixed` from src/util.ts. -/
def roundToFixed (value : ℚ) (places : ℕ) : ℚ :=
  if value < 1/100000 ∧ -(1/100000) < value then 0
  else
    let rounder : ℚ := (10 : ℚ) ^ places
    (jsRound (value * rounder) : ℚ) / rounder

/-! ## Constraint-to-anchor tables (src/util.ts)

Figma constraints are expressed in a top-left, downward-Y frame; CUGL
anchors in a bottom-left, upward-Y frame.  `convertXAnchor` and
`convertYAnchor` translate one per-axis constraint value each. -/

/-- The per-axis constraint values of `RectangleNode["constraints"]`. -/
inductive ConstraintType where
  | min
  | center
  | max
  | stretch
  | scale
deriving DecidableEq, Repr

/-- `convertXAnchor` from src/util.ts: `SCALE` and any missing value fall
through to the default case. -/
def convertXAnchor : Option ConstraintType → ℚ × String
  | some ConstraintType.min => (0, "left")
  | some ConstraintType.center => (1/2, "center")
  | some ConstraintType.max => (1, "right")
  | some ConstraintType.stretch => (1/2, "fill")
  | some ConstraintType.scale => (0, "left")
  | none => (0, "left")

/-- `convertYAnchor` from src/util.ts. -/
def convertYAnchor : Option ConstraintType → ℚ × String
  | some ConstraintType.min => (1, "top")
  | some ConstraintType.center => (1/2, "middle")
  | some ConstraintType.max => (0, "bottom")
  | some ConstraintType.stretch => (1/2, "fill")
  | some ConstraintType.scale => (0, "bottom")
  | none => (0, "bottom")

/-! ## The vertical coordinate flip

`genLabel` (text.ts), `genFrame` (frame.ts), `genImage` (image.ts) and
the shape builders all compute
`ypos = parent.height ? parent.height - node.height - node.y : -node.y`.
The parent height is `undefined` when the parent is the document page
(the root case); JavaScript truthiness also sends a height of exactly 0
to the `-node.y` branch. -/

/-- The shared `ypos` computation.  `none` models an undefined
`parent.height`; a zero height is falsy in JavaScript and takes the same
branch. -/
def convertY (parentHeight : Option ℚ) (nodeHeight nodeY : ℚ) : ℚ :=
  match parentHeight with
  | some ph => if ph = 0 then -nodeY else ph - nodeHeight - nodeY
  | none => -nodeY

/-- The position field of `genLabel` (text.ts, lines 41-47):
`[node.x, ypos]`, unrounded. -/
def genLabelPos (parentHeight : Option ℚ) (x y h : ℚ) : ℚ × ℚ :=
  (x, convertY parentHeight h y)

/-- The position field of `genFrame` (frame.ts, lines 66-74): the same
flip, rounded to two decimal places. -/
def genFramePos (parentHeight : Option ℚ) (x y h : ℚ) : ℚ × ℚ :=
  (roundToFixed x 2, roundToFixed (convertY parentHeight h y) 2)

/-! ## Geometry (shape.ts)

`curveSegs`, `ellipse` and `roundedRect` are pure tessellators.  The
transcendental functions are abstracted as rational-valued oracles
`cos`, `sin`, `acos` and the constant `pi`; all counting and ordering
statements below hold for every choice of oracle. -/

/-- `curveSegs` from shape.ts: the number of segments for a smooth arc,
`Math.max(2, Math.ceil(arc / da))` with
`da = Math.acos(rad / (rad + 0.5)) * 2`. -/
def curveSegs (acos : ℚ → ℚ) (rad arc : ℚ) : ℤ :=
  let tol : ℚ := 1/2
  let da : ℚ := acos (rad / (rad + tol)) * 2
  max 2 (Int.ceil (arc / da))

/-- Flattens the sample points `f 0, f 1, …, f (n-1)` into the
coordinate list `[x₀, y₀, x₁, y₁, …]`, the way the loops in shape.ts
write `points[2*ii+off]` and `points[2*ii+off+1]`. -/
def sampleSeq (f : ℕ → ℚ × ℚ) : ℕ → List ℚ
  | 0 => []
  | n + 1 => sampleSeq f n ++ [(f n).1, (f n).2]

/-- `ellipse` from shape.ts: `2*segs` points around the origin-centered
ellipse, each coordinate rounded to two decimal places. -/
def ellipse (cos sin : ℚ → ℚ) (pi : ℚ) (w h : ℚ) (segs : ℕ) : List ℚ :=
  let coef := 2 * pi / (segs : ℚ)
  sampleSeq
    (fun ii =>
      (roundToFixed (1/2 * w * cos ((ii : ℚ) * coef / 2)) 2,
       roundToFixed (1/2 * h * sin ((ii : ℚ) * coef / 2)) 2))
    (2 * segs)

/-- `roundedRect` from shape.ts: walks the corners in the order
top-right, top-left, bottom-left, bottom-right; a zero radius emits the
bare corner, a nonzero radius emits `curveSegs(r, π/2) + 1` arc samples. -/
def roundedRect (cos sin acos : ℚ → ℚ) (pi : ℚ)
    (w h tl tr br bl : ℚ) : List ℚ :=
  let c1x := if 0 ≤ w then w else 0
  let c1y := if 0 ≤ h then h else 0
  let c2x := if 0 ≤ w then 0 else w
  let c2y := if 0 ≤ h then h else 0
  let c3x := if 0 ≤ w then 0 else w
  let c3y := if 0 ≤ h then 0 else h
  let c4x := if 0 ≤ w then w else 0
  let c4y := if 0 ≤ h then 0 else h
  let cornerTR :=
    if tr = 0 then [c1x, c1y]
    else
      let segs := (curveSegs acos tr (pi/2)).toNat
      let coef := pi / (2 * (segs : ℚ))
      let cx := c1x - tr
      let cy := c1y - tr
      sampleSeq
        (fun ii =>
          (roundToFixed (tr * cos ((ii : ℚ) * coef) + cx) 2,
           roundToFixed (tr * sin ((ii : ℚ) * coef) + cy) 2))
        (segs + 1)
  let cornerTL :=
    if tl = 0 then [c2x, c2y]
    else
      let segs := (curveSegs acos tl (pi/2)).toNat
      let coef := pi / (2 * (segs : ℚ))
      let cx := c2x + tl
      let cy := c2y - tl
      sampleSeq
        (fun ii =>
          (roundToFixed (cx - tl * sin ((ii : ℚ) * coef)) 2,
           roundToFixed (tl * cos ((ii : ℚ) * coef) + cy) 2))
        (segs + 1)
  let cornerBL :=
    if bl = 0 then [c3x, c3y]
    else
      let segs := (curveSegs acos bl (pi/2)).toNat
      let coef := pi / (2 * (segs : ℚ))
      let cx := c3x + bl
      let cy := c3y + bl
      sampleSeq
        (fun ii =>
          (roundToFixed (cx - bl * cos ((ii : ℚ) * coef)) 2,
           roundToFixed (cy - bl * sin ((ii : ℚ) * coef)) 2))
        (segs + 1)
  let cornerBR :=
    if br = 0 then [c4x, c4y]
    else
      let segs := (curveSegs acos br (pi/2)).toNat
      let coef := pi / (2 * (segs : ℚ))
      let cx := c4x - br
      let cy := c4y + br
      sampleSeq
        (fun ii =>
          (roundToFixed (br * sin ((ii : ℚ) * coef) + cx) 2,
           roundToFixed (cy - br * cos ((ii : ℚ) * coef)) 2))
        (segs + 1)
  cornerTR ++ cornerTL ++ cornerBL ++ cornerBR

/-- Number of (x, y) points `roundedRect` emits for one corner of the
given radius. -/
def cornerCount (acos : ℚ → ℚ) (pi r : ℚ) : ℕ :=
  if r = 0 then 1 else (curveSegs acos r (pi/2)).toNat + 1

/-! ## Stroke inset/outset (shape.ts)

When a rectangle or ellipse carries a stroke, `genRectangle` and
`genEllipse` recompute the edge polygon from adjusted dimensions:
`sw -= node.strokeWeight - epsilon` (INSIDE), `sw += ...` (OUTSIDE) with
`epsilon = 0.5`, the rectangle also adjusting all four corner radii. -/

/-- The stroke alignments of the Figma API. -/
inductive StrokeAlign where
  | inside
  | outside
  | center
deriving DecidableEq, Repr

/-- The seam-avoidance epsilon of shape.ts. -/
def strokeEpsilon : ℚ := 1/2

/-- The dimension adjustment of `genRectangle` (shape.ts, lines 527-553):
width, height and the four corner radii, in that order. -/
def strokeAdjustRect (align : StrokeAlign) (weight w h tl tr br bl : ℚ) :
    ℚ × ℚ × ℚ × ℚ × ℚ × ℚ :=
  match align with
  | StrokeAlign.inside =>
    (w - (weight - strokeEpsilon), h - (weight - strokeEpsilon),
     tl - (weight - strokeEpsilon), tr - (weight - strokeEpsilon),
     br - (weight - strokeEpsilon), bl - (weight - strokeEpsilon))
  | StrokeAlign.outside =>
    (w + (weight - strokeEpsilon), h + (weight - strokeEpsilon),
     tl + (weight - strokeEpsilon), tr + (weight - strokeEpsilon),
     br + (weight - strokeEpsilon), bl + (weight - strokeEpsilon))
  | StrokeAlign.center => (w, h, tl, tr, br, bl)

/-- The dimension adjustment of `genEllipse` (shape.ts, lines 643-660):
the ellipse has no corner radii, only width and height move. -/
def strokeAdjustEllipse (align : StrokeAlign) (weight w h : ℚ) : ℚ × ℚ :=
  match align with
  | StrokeAlign.inside =>
    (w - (weight - strokeEpsilon), h - (weight - strokeEpsilon))
  | StrokeAlign.outside =>
    (w + (weight - strokeEpsilon), h + (weight - strokeEpsilon))
  | StrokeAlign.center => (w, h)

/-- The stroke edge polygon of `genRectangle`:
`roundedRect(sw, sh, tl, tr, br, bl)` on the adjusted values. -/
def genRectangleEdge (cos sin acos : ℚ → ℚ) (pi : ℚ)
    (align : StrokeAlign) (weight w h tl tr br bl : ℚ) : List ℚ :=
  match strokeAdjustRect align weight w h tl tr br bl with
  | (sw, sh, atl, atr, abr, abl) =>
    roundedRect cos sin acos pi sw sh atl atr abr abl

/-- The stroke edge polygon of `genEllipse`: `ellipse(sw, sh, 2*segs)` on
the adjusted values, with `segs` computed from the original box. -/
def genEllipseEdge (cos sin acos : ℚ → ℚ) (pi : ℚ)
    (align : StrokeAlign) (weight w h : ℚ) : List ℚ :=
  let segs := (curveSegs acos (max (w/2) (h/2)) (2*pi)).toNat
  match strokeAdjustEllipse align weight w h with
  | (sw, sh) => ellipse cos sin pi sw sh (2 * segs)

/-! ## The float-layout children assembler (children.ts)

`genChildrenByFloat` converts a Figma auto layout to a CUGL float
layout.  Each child is recentered to its true geometric center with
anchor (0.5, 0.5), receives `priority = index`, and one of three padding
profiles chosen by its document position.  Recursive child conversion
(`generateNode`) is abstracted as an oracle producing the child's data
record; the assembler overwrites its position and anchor. -/

/-- The fields of a Figma scene node read by `getCenter` and the
assemblers.  `rt` entries are the corresponding cells of
`relativeTransform`. -/
structure FigNode where
  name : String
  x : ℚ
  y : ℚ
  width : ℚ
  height : ℚ
  rt00 : ℚ
  rt01 : ℚ
  rt10 : ℚ
  rt11 : ℚ
deriving DecidableEq, Repr

/-- `getCenter` from children.ts (lines 115-121): the rotational center
of the node in its parent's top-left, downward-Y frame. -/
def getCenter (n : FigNode) : ℚ × ℚ :=
  let right := n.rt00 * n.width + n.rt01 * n.height + n.x
  let top := n.rt10 * n.width + n.rt11 * n.height + n.y
  ((n.x + right) / 2, (n.y + top) / 2)

/-- The data record of a generated CUGL node, restricted to the fields
the children assemblers touch or pass through. -/
structure NodeData where
  position : ℚ × ℚ
  anchor : ℚ × ℚ
  angle : ℚ
deriving DecidableEq, Repr

/-- A float-layout child: the node data plus its layout entry. -/
structure FloatChild where
  data : NodeData
  priority : ℕ
  padding : List ℚ
deriving DecidableEq, Repr

/-- `startPadding` of `genChildrenByFloat`: `mode` is true for a
horizontal layout. -/
def floatStartPadding (mode : Bool) (padL padB padR padT spacing : ℚ) :
    List ℚ :=
  if mode then [padL, padB, spacing, padT] else [padL, spacing, padR, padT]

/-- `interPadding` of `genChildrenByFloat`. -/
def floatInterPadding (mode : Bool) (padL padB padR padT spacing : ℚ) :
    List ℚ :=
  if mode then [0, padB, spacing, padT] else [padL, spacing, padR, 0]

/-- `finalPadding` of `genChildrenByFloat`. -/
def floatFinalPadding (mode : Bool) (padL padB padR padT spacing : ℚ) :
    List ℚ :=
  if mode then [0, padB, padR, padT] else [padL, padB, padR, 0]

/-- The padding selection
`(index == 0) ? startPadding : (index == total-1) ? finalPadding
: interPadding`. -/
def floatPaddingFor (mode : Bool) (padL padB padR padT spacing : ℚ)
    (index total : ℕ) : List ℚ :=
  if index = 0 then floatStartPadding mode padL padB padR padT spacing
  else if index = total - 1 then
    floatFinalPadding mode padL padB padR padT spacing
  else floatInterPadding mode padL padB padR padT spacing

/-- The entry `genChildrenByFloat` stores for the child at `index`:
generated data recentered to `getCenter` with anchor (0.5, 0.5), layout
priority `index`, and the position-selected padding. -/
def floatEntry (gen : FigNode → NodeData) (mode : Bool)
    (padL padB padR padT spacing : ℚ) (total : ℕ) (child : FigNode)
    (index : ℕ) : FloatChild :=
  let generated := gen child
  { data := { generated with
              position := getCenter child,
              anchor := (1/2, 1/2) },
    priority := index,
    padding := floatPaddingFor mode padL padB padR padT spacing index total }

/-- The `forEach` loop of `genChildrenByFloat` (children.ts, lines
165-184): keys are the base name, suffixed with `_<index>` when already
present in the record being built.  The collision test is modelled on
the record's own keys; the properties proved about this assembler
concern each emitted entry's data and layout values, which are computed
per child and do not depend on the key chosen for it. -/
def genChildrenByFloatAux (gen : FigNode → NodeData) (mode : Bool)
    (padL padB padR padT spacing : ℚ) (total : ℕ) :
    List FigNode → ℕ → List (String × FloatChild) →
    List (String × FloatChild)
  | [], _, result => result
  | child :: rest, index, result =>
    let suffix := baseOf child.name
    let key :=
      if hasKey result suffix then suffix ++ "_" ++ Nat.repr index
      else suffix
    genChildrenByFloatAux gen mode padL padB padR padT spacing total rest
      (index + 1)
      (upsert result key
        (floatEntry gen mode padL padB padR padT spacing total child index))

/-- `genChildrenByFloat` from children.ts. -/
def genChildrenByFloat (gen : FigNode → NodeData) (mode : Bool)
    (padL padB padR padT spacing : ℚ) (children : List FigNode) :
    List (String × FloatChild) :=
  genChildrenByFloatAux gen mode padL padB padR padT spacing
    children.length children 0 []

/-! ## Anchored-layout key assignment (children.ts)

`genChildrenByAnchor` assigns its child map keys with the same
base-name-or-suffix rule, testing `suffix in result` on a plain object
literal.  The JavaScript `in` operator also reports the inherited
properties of `Object.prototype`, so a base name such as `toString`
collides even in an empty record and is suffixed immediately.  The test
is therefore modelled relative to an explicit list of inherited
prototype keys, and the key-rule theorem below is proved for every such
list; `objectProtoKeys` is the concrete list of ECMA-262 (including the
Annex B legacy accessors, which the plugin's JavaScript engine exposes).

The map value is modelled by the child's document index, which
identifies which child an entry holds.  Storing under plain association
lists is faithful here even for the `__proto__` accessor quirk of real
object assignment: `__proto__` is itself an inherited key, so a child
base-named `__proto__` is always suffixed, and a suffixed key ends in a
decimal digit, so the store never assigns the key `__proto__`. -/

/-- The property names the `in` operator finds on `Object.prototype`. -/
def objectProtoKeys : List String :=
  ["constructor", "hasOwnProperty", "isPrototypeOf",
   "propertyIsEnumerable", "toLocaleString", "toString", "valueOf",
   "__proto__", "__defineGetter__", "__defineSetter__",
   "__lookupGetter__", "__lookupSetter__"]

/-- The JavaScript `in` test on a plain-object record: the record's own
keys plus the inherited prototype keys. -/
def jsIn {α : Type} (proto : List String) (m : List (String × α))
    (k : String) : Bool :=
  decide (k ∈ proto) || hasKey m k

/-- The `forEach` loop of `genChildrenByAnchor` (children.ts, lines
322-327), returning both the per-child key list (in document order) and
the resulting record. -/
def anchorKeysAux (proto : List String) :
    List String → ℕ → List (String × ℕ) →
    List String × List (String × ℕ)
  | [], _, result => ([], result)
  | name :: rest, index, result =>
    let suffix := baseOf name
    let key :=
      if jsIn proto result suffix then suffix ++ "_" ++ Nat.repr index
      else suffix
    let next := anchorKeysAux proto rest (index + 1) (upsert result key index)
    (key :: next.1, next.2)

/-- The key assigned to each child, in document order. -/
def childKeys (proto : List String) (names : List String) : List String :=
  (anchorKeysAux proto names 0 []).1

/-- The finished child record, mapping each key to the document index of
the child stored under it. -/
def buildChildMap (proto : List String) (names : List String) :
    List (String × ℕ) :=
  (anchorKeysAux proto names 0 []).2

/-! ## The button slot scanner (button.ts)

`genButton` throws when the tagged container has no children.  With one
child, its suffix fills the `up` slot unless the name carries an explicit
tag.  With several children, every `tag:base` name writes
`buttonNames[tag] = base` (later writes overwrite earlier ones) and the
first child's suffix is remembered as the fallback.  The up node is
`buttonNames["up"]` if present, else the fallback; the down node is
emitted only if `buttonNames["down"]` exists. -/

/-- The scanning loop of `genButton` for two or more children
(button.ts, lines 98-110): accumulates `buttonNames` and `firstButton`. -/
def buttonScanMulti : List String → ℕ → List (String × String) → String →
    List (String × String) × String
  | [], _, bn, fb => (bn, fb)
  | name :: rest, ii, bn, fb =>
    let comps := splitOnChar ':' name.toList
    let suffix := String.mk (comps.getLastD [])
    let bn2 :=
      if comps.length = 2 then upsert bn (String.mk (comps.headD [])) suffix
      else bn
    let fb2 := if ii = 0 then suffix else fb
    buttonScanMulti rest (ii + 1) bn2 fb2

/-- The single-child branch of `genButton` (button.ts, lines 85-96): an
untagged lone child implicitly fills the `up` slot. -/
def buttonScanSingle (name : String) : List (String × String) × String :=
  let comps := splitOnChar ':' name.toList
  let suffix := String.mk (comps.getLastD [])
  if comps.length = 2 then
    ([(String.mk (comps.headD []), suffix)], suffix)
  else
    ([("up", suffix)], suffix)

/-- The up/down slot resolution of `genButton` (button.ts, lines 78-156):
fails on an empty container, otherwise returns the up node name and the
optional down node name. -/
def genButtonSlots (names : List String) :
    Except String (String × Option String) :=
  match names with
  | [] => Except.error "attached to a node with no children"
  | [n] =>
    let scanned := buttonScanSingle n
    Except.ok ((getValue scanned.1 "up").getD scanned.2,
      getValue scanned.1 "down")
  | _ =>
    let scanned := buttonScanMulti names 0 [] ""
    Except.ok ((getValue scanned.1 "up").getD scanned.2,
      getValue scanned.1 "down")

/-- The base name of the last child carrying tag `t`, if any: the value
`buttonNames[t]` ends up with after the scan. -/
def lastTagged (t : String) (names : List String) : Option String :=
  (names.filterMap
    (fun n => if tagOf n = some t then some (baseOf n) else none)).getLast?

/-! ## The image dedup table (image.ts, index.ts)

`genImage` builds the `Image` node literal first — capturing the layer's
own base name in its `texture` field — and only afterwards consults
`imageHashMap`.  The canonical-name read
`texture = imageHashMap.get(imageHash)` is a dead store into a local that
is never used again, so it cannot influence the node already built.
`generateTextures` then keys the manifest by the map's values. -/

/-- The fields of a generated `Image` node relevant to texture
resolution. -/
structure ImageNode where
  texture : String
deriving DecidableEq, Repr

/-- `genImage` from image.ts (lines 35-70), threading the image hash map
explicitly.  The node is created before the map is consulted; only the
first encounter of a hash writes the map. -/
def genImage (name imageHash : String) (m : List (String × String)) :
    ImageNode × List (String × String) :=
  let texture := baseOf name
  let imageCode : ImageNode := { texture := texture }
  let m2 := if hasKey m imageHash then m else upsert m imageHash texture
  (imageCode, m2)

/-- `generateTextures` from index.ts (lines 171-178): one manifest entry
per value of the image hash map, keyed by texture name. -/
def generateTextures (m : List (String × String)) :
    List (String × String) :=
  m.foldl (fun acc p => upsert acc p.2 "textures/[filename].png") []

/-! ## Concrete fixtures

Small closed instances used to exercise the statements below on
computable inputs. -/

/-- A constant child-conversion oracle. -/
def genConst : FigNode → NodeData :=
  fun _ => { position := (0, 0), anchor := (0, 0), angle := 0 }

/-- A sample unrotated Figma child. -/
def sampleChild : FigNode :=
  { name := "kid", x := 1, y := 2, width := 3, height := 4,
    rt00 := 1, rt01 := 0, rt10 := 0, rt11 := 1 }

/-- A zero oracle for the abstracted transcendental functions. -/
def zeroOracle : ℚ → ℚ := fun _ => 0

/-! ## Properties of `splitOnChar` -/

theorem splitOnChar_ne_nil (c : Char) (l : List Char) :
    splitOnChar c l ≠ [] := by
  induction l with
  | nil => simp [splitOnChar]
  | cons x xs ih =>
    by_cases h : x = c
    · simp [splitOnChar, h]
    · simp only [splitOnChar, if_neg h]
      cases hs : splitOnChar c xs with
      | nil => simp
      | cons y ys => simp

theorem splitOnChar_of_not_mem (c : Char) (l : List Char)
    (h : c ∉ l) : splitOnChar c l = [l] := by
  induction l with
  | nil => rfl
  | cons x xs ih =>
    have hx : x ≠ c := fun hc => h (hc ▸ List.mem_cons_self x xs)
    have hxs : c ∉ xs := fun hc => h (List.mem_cons_of_mem x hc)
    simp [splitOnChar, hx, ih hxs]

theorem splitOnChar_append (c : Char) (a b : List Char) (ha : c ∉ a) :
    splitOnChar c (a ++ c :: b) = a :: splitOnChar c b := by
  induction a with
  | nil => simp [splitOnChar]
  | cons x xs ih =>
    have hx : x ≠ c := fun hc => ha (hc ▸ List.mem_cons_self x xs)
    have hxs : c ∉ xs := fun hc => ha (List.mem_cons_of_mem x hc)
    simp [splitOnChar, hx, ih hxs]

theorem length_splitOnChar (c : Char) (l : List Char) :
    (splitOnChar c l).length = l.count c + 1 := by
  induction l with
  | nil => simp [splitOnChar]
  | cons x xs ih =>
    by_cases h : x = c
    · subst h
      simp [splitOnChar, ih, List.count_cons]
    · simp only [splitOnChar, if_neg h]
      cases hs : splitOnChar c xs with
      | nil => exact absurd hs (splitOnChar_ne_nil c xs)
      | cons y ys =>
        rw [hs] at ih
        simp only [List.length_cons] at ih ⊢
        rw [List.count_cons, if_neg (by simpa using h)]
        omega

/-! ## The name parser -/

theorem parseOk_eq_isIdentifier (l : List Char) (h : (':' : Char) ∉ l) :
    parseOk l = isIdentifier l := by
  unfold parseOk parseName
  rw [splitOnChar_of_not_mem ':' l h]
  by_cases hid : isIdentifier l
  · simp [hid]
  · simp [hid]

theorem parseName_one_colon (a b : List Char)
    (ha : (':' : Char) ∉ a) (hb : (':' : Char) ∉ b) :
    parseName (a ++ ':' :: b) =
      Except.ok { tag := some (a.map Char.toLower), base := b } := by
  unfold parseName
  rw [splitOnChar_append ':' a b ha, splitOnChar_of_not_mem ':' b hb]

theorem parseName_many_colons (l : List Char) (h : 2 ≤ l.count ':') :
    parseOk l = false := by
  have hlen : 3 ≤ (splitOnChar ':' l).length := by
    rw [length_splitOnChar]
    omega
  obtain ⟨x, y, z, rest, hs⟩ :
      ∃ x y z rest, splitOnChar ':' l = x :: y :: z :: rest := by
    cases h1 : splitOnChar ':' l with
    | nil => rw [h1] at hlen; simp at hlen
    | cons x rest =>
      cases rest with
      | nil => rw [h1] at hlen; simp at hlen
      | cons y rest2 =>
        cases rest2 with
        | nil => rw [h1] at hlen; simp at hlen
        | cons z rest3 => exact ⟨x, y, z, rest3, rfl⟩
  unfold parseOk parseName
  rw [hs]

/-- C5: the name parser fails exactly when the display name contains more
than one colon, or contains zero colons and does not match
`[A-Za-z_][A-Za-z0-9_]*`; every zero-colon name succeeds iff it matches
that regex (`foo` and `_x2` succeed, `2foo` and `foo bar` fail), and
every one-colon name succeeds yielding the lower-cased text before the
colon as tag and the text after it as base. -/
theorem C5_name_parsing :
    (∀ l : List Char, (':' : Char) ∉ l →
      (parseOk l = true ↔ isIdentifier l = true)) ∧
    (∀ a b : List Char, (':' : Char) ∉ a → (':' : Char) ∉ b →
      parseName (a ++ ':' :: b) =
        Except.ok { tag := some (a.map Char.toLower), base := b }) ∧
    (∀ l : List Char, 2 ≤ l.count ':' → parseOk l = false) ∧
    (parseOk "foo".toList = true ∧ parseOk "_x2".toList = true ∧
      parseOk "2foo".toList = false ∧ parseOk "foo bar".toList = false) := by
  refine ⟨?_, parseName_one_colon, parseName_many_colons, by decide⟩
  intro l h
  rw [parseOk_eq_isIdentifier l h]

/-- Concrete instances of `C5_name_parsing`: the parse of `foo` tracks the
identifier test, `btn:go` parses into tag `btn` and base `go`, and
`a:b:c` is rejected. -/
theorem C5_name_parsing_witness :
    (parseOk "foo".toList = true ↔ isIdentifier "foo".toList = true) ∧
    parseName ("btn".toList ++ ':' :: "go".toList) =
      Except.ok { tag := some ("btn".toList.map Char.toLower),
                  base := "go".toList } ∧
    parseOk "a:b:c".toList = false :=
  ⟨C5_name_parsing.1 "foo".toList (by decide),
   C5_name_parsing.2.1 "btn".toList "go".toList (by decide) (by decide),
   C5_name_parsing.2.2.1 "a:b:c".toList (by decide)⟩

/-! ## The anchor tables -/

/-- C3 counterexample: on the vertical axis `MIN` maps to anchor fraction
1 (top) and `MAX` to 0 (bottom), not to 0 and 1 as claimed. -/
theorem C3_anchor_fractions_counterexample :
    (convertYAnchor (some ConstraintType.min)).1 ≠ 0 ∧
    (convertYAnchor (some ConstraintType.max)).1 ≠ 1 := by
  constructor <;> norm_num [convertYAnchor]

/-- C3 amended: `convertXAnchor` maps MIN, CENTER, MAX, STRETCH to the
fractions 0, 0.5, 1, 0.5 named left/center/right/fill, while
`convertYAnchor` maps them to the flipped fractions 1, 0.5, 0, 0.5 named
top/middle/bottom/fill; unrecognized (`SCALE`) or absent values default
to (0, left) and (0, bottom), the axis-minimum anchors of the upward-Y
output frame. -/
theorem C3_anchor_tables :
    convertXAnchor (some ConstraintType.min) = (0, "left") ∧
    convertXAnchor (some ConstraintType.center) = (1/2, "center") ∧
    convertXAnchor (some ConstraintType.max) = (1, "right") ∧
    convertXAnchor (some ConstraintType.stretch) = (1/2, "fill") ∧
    convertXAnchor (some ConstraintType.scale) = (0, "left") ∧
    convertXAnchor none = (0, "left") ∧
    convertYAnchor (some ConstraintType.min) = (1, "top") ∧
    convertYAnchor (some ConstraintType.center) = (1/2, "middle") ∧
    convertYAnchor (some ConstraintType.max) = (0, "bottom") ∧
    convertYAnchor (some ConstraintType.stretch) = (1/2, "fill") ∧
    convertYAnchor (some ConstraintType.scale) = (0, "bottom") ∧
    convertYAnchor none = (0, "bottom") :=
  ⟨rfl, rfl, rfl, rfl, rfl, rfl, rfl, rfl, rfl, rfl, rfl, rfl⟩

/-! ## The vertical flip -/

/-- C6 counterexample: a parent whose height is exactly 0 is falsy in the
JavaScript test `parent.height ? ... : ...`, so the converted Y is `-y`
rather than `H - h - y`. -/
theorem C6_flip_counterexample :
    genLabelPos (some 0) 5 2 1 ≠ (5, (0 : ℚ) - 1 - 2) := by
  norm_num [genLabelPos, convertY]

/-- C6 amended: for every unrotated node at (x, y, w, h) under a parent
with defined nonzero height H the converted position is (x, H − h − y)
(the frame builder additionally rounds both coordinates to two decimal
places); when the parent has no defined height — or a zero height, which
JavaScript truthiness sends down the same branch — the converted Y is −y;
the conversion is a pure function, so converting twice with the same
inputs yields the same output. -/
theorem C6_flip (H x y h : ℚ) (hH : H ≠ 0) :
    genLabelPos (some H) x y h = (x, H - h - y) ∧
    genLabelPos none x y h = (x, -y) ∧
    genFramePos (some H) x y h =
      (roundToFixed x 2, roundToFixed (H - h - y) 2) ∧
    genLabelPos (some H) x y h = genLabelPos (some H) x y h := by
  refine ⟨?_, rfl, ?_, rfl⟩ <;> simp [genLabelPos, genFramePos, convertY, hH]

/-- Concrete instance of `C6_flip`: the spec's end-to-end scenario, a
child at (10, 10) of height 20 under a parent of height 200 lands at
(10, 170). -/
theorem C6_flip_witness :
    genLabelPos (some 200) 10 10 20 = (10, 200 - 20 - 10) ∧
    genLabelPos none 10 10 20 = (10, -10) ∧
    genFramePos (some 200) 10 10 20 =
      (roundToFixed 10 2, roundToFixed (200 - 20 - 10) 2) ∧
    genLabelPos (some 200) 10 10 20 = genLabelPos (some 200) 10 10 20 :=
  C6_flip 200 10 10 20 (by norm_num)

/-! ## The stroke offset -/

/-- C2 counterexample: with stroke weight 2 an INSIDE-aligned rectangle
of width 10 regenerates its edge at width 8.5, not at the width 9.5 that
subtracting an epsilon of exactly 0.5 would give. -/
theorem C2_stroke_epsilon_counterexample :
    (strokeAdjustRect StrokeAlign.inside 2 10 10 1 1 1 1).1 ≠
      10 - strokeEpsilon ∧
    (strokeAdjustRect StrokeAlign.inside 2 10 10 1 1 1 1).1 =
      10 - (2 - strokeEpsilon) := by
  constructor <;> norm_num [strokeAdjustRect, strokeEpsilon]

/-- C2 amended: for every rectangle or ellipse with a stroke, the
quantity strokeWeight − 0.5 (the stroke weight reduced by the epsilon
0.5) — not the bare epsilon — is subtracted from width, height and (for
the rectangle) all four corner radii when strokeAlign is INSIDE, added
when it is OUTSIDE, and the dimensions are left unchanged when it is
CENTER, before the edge polygon is regenerated from the adjusted values
(the ellipse's segment count still coming from the original box). -/
theorem C2_stroke_adjustment (weight w h tl tr br bl : ℚ)
    (cos sin acos : ℚ → ℚ) (pi : ℚ) :
    strokeAdjustRect StrokeAlign.inside weight w h tl tr br bl =
      (w - weight + 1/2, h - weight + 1/2, tl - weight + 1/2,
       tr - weight + 1/2, br - weight + 1/2, bl - weight + 1/2) ∧
    strokeAdjustRect StrokeAlign.outside weight w h tl tr br bl =
      (w + weight - 1/2, h + weight - 1/2, tl + weight - 1/2,
       tr + weight - 1/2, br + weight - 1/2, bl + weight - 1/2) ∧
    strokeAdjustRect StrokeAlign.center weight w h tl tr br bl =
      (w, h, tl, tr, br, bl) ∧
    strokeAdjustEllipse StrokeAlign.inside weight w h =
      (w - weight + 1/2, h - weight + 1/2) ∧
    strokeAdjustEllipse StrokeAlign.outside weight w h =
      (w + weight - 1/2, h + weight - 1/2) ∧
    strokeAdjustEllipse StrokeAlign.center weight w h = (w, h) ∧
    genRectangleEdge cos sin acos pi StrokeAlign.inside weight w h tl tr br bl =
      roundedRect cos sin acos pi (w - weight + 1/2) (h - weight + 1/2)
        (tl - weight + 1/2) (tr - weight + 1/2) (br - weight + 1/2)
        (bl - weight + 1/2) ∧
    genRectangleEdge cos sin acos pi StrokeAlign.center weight w h tl tr br bl =
      roundedRect cos sin acos pi w h tl tr br bl ∧
    genEllipseEdge cos sin acos pi StrokeAlign.inside weight w h =
      ellipse cos sin pi (w - weight + 1/2) (h - weight + 1/2)
        (2 * (curveSegs acos (max (w/2) (h/2)) (2*pi)).toNat) ∧
    genEllipseEdge cos sin acos pi StrokeAlign.center weight w h =
      ellipse cos sin pi w h
        (2 * (curveSegs acos (max (w/2) (h/2)) (2*pi)).toNat) := by
  refine ⟨?_, ?_, rfl, ?_, ?_, rfl, ?_, rfl, ?_, rfl⟩ <;>
    simp only [strokeAdjustRect, strokeAdjustEllipse, genRectangleEdge,
      genEllipseEdge, strokeEpsilon, Prod.mk.injEq] <;>
    ring_nf <;> simp

/-! ## The rounded-rectangle tessellator -/

theorem length_sampleSeq (f : ℕ → ℚ × ℚ) (n : ℕ) :
    (sampleSeq f n).length = 2 * n := by
  induction n with
  | zero => rfl
  | succ n ih =>
    simp only [sampleSeq, List.length_append, ih, List.length_cons,
      List.length_nil]
    omega

/-- C7: `curveSegs` is an integer at least 2 for every radius and arc
(and for every value of the abstracted `acos`); `roundedRect` walks the
four corners in a fixed order emitting exactly one vertex per zero
radius and `curveSegs(r, π/2) + 1` vertices per nonzero radius; and with
all radii zero on a 10×10 box it returns exactly the 4 corner points. -/
theorem C7_roundedRect_counts :
    (∀ (acos : ℚ → ℚ) (rad arc : ℚ), 2 ≤ curveSegs acos rad arc) ∧
    (∀ (cos sin acos : ℚ → ℚ) (pi w h tl tr br bl : ℚ),
      0 ≤ tl → 0 ≤ tr → 0 ≤ br → 0 ≤ bl →
      (roundedRect cos sin acos pi w h tl tr br bl).length =
        2 * (cornerCount acos pi tr + cornerCount acos pi tl +
             cornerCount acos pi bl + cornerCount acos pi br)) ∧
    (∀ (cos sin acos : ℚ → ℚ) (pi : ℚ),
      roundedRect cos sin acos pi 10 10 0 0 0 0 =
        [10, 10, 0, 10, 0, 0, 10, 0]) := by
  refine ⟨?_, ?_, ?_⟩
  · intro acos rad arc
    exact le_max_left _ _
  · intro cos sin acos pi w h tl tr br bl _ _ _ _
    by_cases htr : tr = 0 <;> by_cases htl : tl = 0 <;>
      by_cases hbl : bl = 0 <;> by_cases hbr : br = 0 <;>
      simp [roundedRect, cornerCount, htr, htl, hbl, hbr,
        length_sampleSeq, List.length_append] <;> ring
  · intro cos sin acos pi
    norm_num [roundedRect]

/-- Concrete instance of `C7_roundedRect_counts`: an all-zero-radius
10×10 rectangle contributes one point per corner. -/
theorem C7_roundedRect_counts_witness :
    (roundedRect zeroOracle zeroOracle zeroOracle 0 10 10 0 0 0 0).length =
      2 * (cornerCount zeroOracle 0 0 + cornerCount zeroOracle 0 0 +
           cornerCount zeroOracle 0 0 + cornerCount zeroOracle 0 0) :=
  C7_roundedRect_counts.2.1 zeroOracle zeroOracle zeroOracle 0 10 10 0 0 0 0
    (by norm_num) (by norm_num) (by norm_num) (by norm_num)

/-! ## The image dedup table -/

/-- C1: two image fills with the same hash but different layer names do
NOT both resolve to the first-seen texture name.  The node literal is
built before the dedup table is consulted, so the second node keeps its
own name `b` — a name the emitted manifest (which correctly holds exactly
one entry, under the first-seen name `a`) does not contain.  The
canonical-name read in image.ts is a dead store into a local variable,
which shows the first-writer-wins resolution was the intent. -/
theorem C1_image_dedup_divergence :
    (genImage "a" "h" []).1.texture = "a" ∧
    (genImage "b" "h" (genImage "a" "h" []).2).1.texture = "b" ∧
    ("b" : String) ≠ "a" ∧
    generateTextures (genImage "b" "h" (genImage "a" "h" []).2).2 =
      [("a", "textures/[filename].png")] ∧
    hasKey
      (generateTextures (genImage "b" "h" (genImage "a" "h" []).2).2)
      ((genImage "b" "h" (genImage "a" "h" []).2).1.texture) = false := by
  refine ⟨rfl, rfl, by decide, rfl, rfl⟩

/-! ## The float-layout assembler -/

theorem mem_upsert {α : Type} {m : List (String × α)} {k : String}
    {v : α} {p : String × α} (h : p ∈ upsert m k v) :
    p ∈ m ∨ p = (k, v) := by
  induction m with
  | nil =>
    simp only [upsert, List.mem_singleton] at h
    right
    exact h
  | cons q rest ih =>
    simp only [upsert] at h
    by_cases hq : q.1 = k
    · rw [if_pos hq] at h
      rcases List.mem_cons.1 h with h1 | h2
      · right; exact h1
      · left; exact List.mem_cons_of_mem q h2
    · rw [if_neg hq] at h
      rcases List.mem_cons.1 h with h1 | h2
      · left; exact h1 ▸ List.mem_cons_self q rest
      · rcases ih h2 with h3 | h4
        · left; exact List.mem_cons_of_mem q h3
        · right; exact h4

theorem mem_genChildrenByFloatAux (gen : FigNode → NodeData) (mode : Bool)
    (padL padB padR padT spacing : ℚ) (total : ℕ) :
    ∀ (rest : List FigNode) (index : ℕ)
      (acc : List (String × FloatChild)) (k : String) (e : FloatChild),
      (k, e) ∈ genChildrenByFloatAux gen mode padL padB padR padT spacing
        total rest index acc →
      (k, e) ∈ acc ∨ ∃ j, ∃ hj : j < rest.length,
        e = floatEntry gen mode padL padB padR padT spacing total
          (rest.get ⟨j, hj⟩) (index + j) := by
  intro rest
  induction rest with
  | nil =>
    intro index acc k e h
    left
    exact h
  | cons child rest2 ih =>
    intro index acc k e h
    simp only [genChildrenByFloatAux] at h
    rcases ih (index + 1) _ k e h with h1 | ⟨j, hj, he⟩
    · rcases mem_upsert h1 with h2 | h3
      · left; exact h2
      · right
        refine ⟨0, by simp, ?_⟩
        have := congrArg Prod.snd h3
        simpa using this
    · right
      refine ⟨j + 1, by simpa using Nat.succ_lt_succ hj, ?_⟩
      rw [he]
      congr 1
      omega

/-- C10: every child map entry produced by the float-layout assembler has
anchor exactly (0.5, 0.5) and position exactly `getCenter` of the source
child — the rotational center computed from the relative transform in
Figma's top-left, downward-Y frame.  The assembler takes no parent
height at all, so the vertical flip formula is never applied to a
float-layout child's position. -/
theorem C10_float_recenter (gen : FigNode → NodeData) (mode : Bool)
    (padL padB padR padT spacing : ℚ) (children : List FigNode)
    (k : String) (e : FloatChild)
    (h : (k, e) ∈ genChildrenByFloat gen mode padL padB padR padT spacing
      children) :
    e.data.anchor = (1/2, 1/2) ∧
    ∃ j, ∃ hj : j < children.length,
      e.data.position = getCenter (children.get ⟨j, hj⟩) ∧
      e.priority = j := by
  rcases mem_genChildrenByFloatAux gen mode padL padB padR padT spacing
    children.length children 0 [] k e h with h1 | ⟨j, hj, he⟩
  · simp at h1
  · subst he
    exact ⟨rfl, j, hj, rfl, by simp [floatEntry]⟩

/-- Concrete instance of `C10_float_recenter` on a one-child layout: the
emitted entry sits at the child's center (2.5, 4) with anchor
(0.5, 0.5). -/
theorem C10_float_recenter_witness :
    (floatEntry genConst true 1 1 1 1 1 1 sampleChild 0).data.anchor =
      (1/2, 1/2) ∧
    ∃ j, ∃ hj : j < [sampleChild].length,
      (floatEntry genConst true 1 1 1 1 1 1 sampleChild 0).data.position =
        getCenter ([sampleChild].get ⟨j, hj⟩) ∧
      (floatEntry genConst true 1 1 1 1 1 1 sampleChild 0).priority = j :=
  C10_float_recenter genConst true 1 1 1 1 1 [sampleChild] "kid"
    (floatEntry genConst true 1 1 1 1 1 1 sampleChild 0)
    (by
      have hres : genChildrenByFloat genConst true 1 1 1 1 1 [sampleChild] =
          [("kid", floatEntry genConst true 1 1 1 1 1 1 sampleChild 0)] := by
        simp [genChildrenByFloat, genChildrenByFloatAux, hasKey, upsert,
          baseOf, sampleChild, splitOnChar]
      rw [hres]
      exact List.mem_singleton.2 rfl)

/-- C4 counterexample: with edge paddings (left, bottom, right, top) =
(1, 2, 3, 4) and item spacing 5, the last of two children receives
padding [0, 2, 3, 4] in a horizontal layout and [1, 2, 3, 0] in a
vertical one — in neither orientation the claimed two-zero profile
(0, edge, edge, 0). -/
theorem C4_float_padding_counterexample :
    floatPaddingFor true 1 2 3 4 5 1 2 ≠ [0, 2, 3, 0] ∧
    floatPaddingFor false 1 2 3 4 5 1 2 ≠ [0, 2, 3, 0] := by
  refine ⟨?_, ?_⟩ <;> decide

/-- C4 amended: the float-layout assembler gives each child one of three
4-sided padding profiles selected by document position.  In a horizontal
layout the first child gets (padL, padB, spacing, padT), interior
children (0, padB, spacing, padT) and the last child (0, padB, padR,
padT); in a vertical layout the profiles are (padL, spacing, padR,
padT), (padL, spacing, padR, 0) and (padL, padB, padR, 0): the last
child zeroes exactly one edge slot, not two.  A sole child counts as
first.  Every emitted entry carries the profile selected by its own
priority index. -/
theorem C4_float_padding :
    (∀ (padL padB padR padT spacing : ℚ) (n : ℕ),
      floatPaddingFor true padL padB padR padT spacing 0 n =
        [padL, padB, spacing, padT] ∧
      floatPaddingFor false padL padB padR padT spacing 0 n =
        [padL, spacing, padR, padT]) ∧
    (∀ (padL padB padR padT spacing : ℚ) (n i : ℕ), 0 < i → i = n - 1 →
      floatPaddingFor true padL padB padR padT spacing i n =
        [0, padB, padR, padT] ∧
      floatPaddingFor false padL padB padR padT spacing i n =
        [padL, padB, padR, 0]) ∧
    (∀ (padL padB padR padT spacing : ℚ) (n i : ℕ), 0 < i → i < n - 1 →
      floatPaddingFor true padL padB padR padT spacing i n =
        [0, padB, spacing, padT] ∧
      floatPaddingFor false padL padB padR padT spacing i n =
        [padL, spacing, padR, 0]) ∧
    (∀ (gen : FigNode → NodeData) (mode : Bool)
      (padL padB padR padT spacing : ℚ) (children : List FigNode)
      (k : String) (e : FloatChild),
      (k, e) ∈ genChildrenByFloat gen mode padL padB padR padT spacing
        children →
      e.padding = floatPaddingFor mode padL padB padR padT spacing
        e.priority children.length) := by
  refine ⟨?_, ?_, ?_, ?_⟩
  · intro padL padB padR padT spacing n
    constructor <;> simp [floatPaddingFor, floatStartPadding]
  · intro padL padB padR padT spacing n i hi hin
    have h0 : ¬ i = 0 := by omega
    constructor <;>
      · unfold floatPaddingFor
        rw [if_neg h0, if_pos hin]
        simp [floatFinalPadding]
  · intro padL padB padR padT spacing n i hi hin
    have h0 : ¬ i = 0 := by omega
    have h1 : ¬ i = n - 1 := by omega
    constructor <;>
      · unfold floatPaddingFor
        rw [if_neg h0, if_neg h1]
        simp [floatInterPadding]
  · intro gen mode padL padB padR padT spacing children k e h
    rcases mem_genChildrenByFloatAux gen mode padL padB padR padT spacing
      children.length children 0 [] k e h with h1 | ⟨j, hj, he⟩
    · simp at h1
    · subst he
      simp [floatEntry]

/-- Concrete instance of `C4_float_padding`: the second of two children
in a horizontal layout receives the final profile [0, 2, 3, 4]. -/
theorem C4_float_padding_witness :
    floatPaddingFor true 1 2 3 4 5 1 2 = [0, 2, 3, 4] ∧
    floatPaddingFor false 1 2 3 4 5 1 2 = [1, 2, 3, 0] :=
  C4_float_padding.2.1 1 2 3 4 5 2 1 (by decide) (by decide)

/-! ## Child key assignment -/

theorem hasKey_upsert {α : Type} (m : List (String × α)) (k : String)
    (v : α) (s : String) :
    hasKey (upsert m k v) s = true ↔ (hasKey m s = true ∨ s = k) := by
  induction m with
  | nil => simp [hasKey, upsert, eq_comm]
  | cons q rest ih =>
    by_cases hq : q.1 = k
    · simp only [hasKey, upsert, if_pos hq, List.any_cons, Bool.or_eq_true,
        decide_eq_true_eq] at ih ⊢
      constructor
      · rintro (h1 | h2)
        · exact Or.inr h1.symm
        · exact Or.inl (Or.inr h2)
      · rintro ((h1 | h2) | h3)
        · exact Or.inl (by rw [hq] at h1; exact h1)
        · exact Or.inr h2
        · exact Or.inl h3.symm
    · simp only [hasKey, upsert, if_neg hq, List.any_cons, Bool.or_eq_true,
        decide_eq_true_eq] at ih ⊢
      constructor
      · rintro (h1 | h2)
        · exact Or.inl (Or.inl h1)
        · rcases ih.1 h2 with h3 | h4
          · exact Or.inl (Or.inr h3)
          · exact Or.inr h4
      · rintro ((h1 | h2) | h3)
        · exact Or.inl h1
        · exact Or.inr (ih.2 (Or.inl h2))
        · exact Or.inr (ih.2 (Or.inr h3))

theorem anchorKeysAux_getD (proto : List String) (names : List String) :
    ∀ (index : ℕ) (r : List (String × ℕ)) (j : ℕ), j < names.length →
      (anchorKeysAux proto names index r).1.getD j "" =
        (if baseOf (names.getD j "") ∈ proto ∨
            hasKey r (baseOf (names.getD j "")) = true ∨
            baseOf (names.getD j "") ∈
              (anchorKeysAux proto names index r).1.take j
         then baseOf (names.getD j "") ++ "_" ++ Nat.repr (index + j)
         else baseOf (names.getD j "")) := by
  induction names with
  | nil =>
    intro index r j hj
    simp at hj
  | cons name rest ih =>
    intro index r j hj
    match j with
    | 0 =>
      simp only [anchorKeysAux, List.getD_cons_zero, List.take_zero,
        List.not_mem_nil, or_false, Nat.add_zero]
      refine if_congr ?_ rfl rfl
      simp [jsIn]
    | j + 1 =>
      have hj2 : j < rest.length := by
        simpa using Nat.lt_of_succ_lt_succ hj
      simp only [anchorKeysAux, List.getD_cons_succ, List.take_succ_cons,
        List.mem_cons]
      rw [ih (index + 1) _ j hj2]
      refine if_congr ?_ ?_ rfl
      · rw [hasKey_upsert]
        tauto
      · have harith : index + 1 + j = index + (j + 1) := by omega
        rw [harith]

/-- C8 counterexample, two violations of the claimed key rule at
concrete inputs.  First, the JavaScript `in` collision test sees the
inherited `Object.prototype` properties, so a sole child base-named
`toString` gets the key `toString_0`, not its parsed base name.
Second, the suffixed key is not re-checked for collision, so siblings
named `a_2`, `a`, `a` make the third child's key `a_2` silently
overwrite the first child's entry: the finished map holds only two
entries and its `a_2` slot holds child 2, not child 0. -/
theorem C8_child_keys_counterexample :
    childKeys objectProtoKeys ["toString"] ≠ ["toString"] ∧
    childKeys objectProtoKeys ["toString"] = ["toString_0"] ∧
    buildChildMap objectProtoKeys ["a_2", "a", "a"] =
      [("a_2", 2), ("a", 1)] ∧
    getValue (buildChildMap objectProtoKeys ["a_2", "a", "a"]) "a_2" ≠
      some 0 ∧
    (buildChildMap objectProtoKeys ["a_2", "a", "a"]).length ≠ 3 := by
  refine ⟨by decide, by decide, by decide, by decide, by decide⟩

/-- C8 amended: each child's output key is its parsed base name, and the
key becomes base_<index> (index the child's zero-based document
position) when the base collides either with a key already used within
the same parent or with an inherited `Object.prototype` property name —
the JavaScript `in` test sees inherited keys, so a first child
base-named `toString` already gets `toString_0`.  Two children both
named `icon` produce keys `icon` and `icon_1`.  The suffixed key is not
itself re-checked, so a sibling whose base name coincides with a
collision-suffixed key (such as `a_2`, `a`, `a`) silently overwrites
that entry; no entry is overwritten when that coincidence does not
arise.  The key rule is proved for every prototype key list, with
`objectProtoKeys` the standard realization. -/
theorem C8_child_keys :
    (∀ (proto names : List String) (j : ℕ), j < names.length →
      (childKeys proto names).getD j "" =
        (if baseOf (names.getD j "") ∈ proto ∨
            baseOf (names.getD j "") ∈ (childKeys proto names).take j
         then baseOf (names.getD j "") ++ "_" ++ Nat.repr j
         else baseOf (names.getD j ""))) ∧
    childKeys objectProtoKeys ["icon", "icon"] = ["icon", "icon_1"] ∧
    buildChildMap objectProtoKeys ["icon", "icon"] =
      [("icon", 0), ("icon_1", 1)] ∧
    childKeys objectProtoKeys ["toString"] = ["toString_0"] := by
  refine ⟨?_, by decide, by decide, by decide⟩
  intro proto names j hj
  have h := anchorKeysAux_getD proto names 0 [] j hj
  simpa [childKeys, hasKey] using h

/-- Concrete instance of `C8_child_keys`: the second `icon` collides with
the first and is suffixed with its index. -/
theorem C8_child_keys_witness :
    (childKeys objectProtoKeys ["icon", "icon"]).getD 1 "" =
      (if baseOf (["icon", "icon"].getD 1 "") ∈ objectProtoKeys ∨
          baseOf (["icon", "icon"].getD 1 "") ∈
            (childKeys objectProtoKeys ["icon", "icon"]).take 1
       then baseOf (["icon", "icon"].getD 1 "") ++ "_" ++ Nat.repr 1
       else baseOf (["icon", "icon"].getD 1 "")) :=
  C8_child_keys.1 objectProtoKeys ["icon", "icon"] 1 (by decide)

/-! ## The button slot scanner -/

theorem orOption_assoc {α : Type} (a b c : Option α) :
    orOption (orOption a b) c = orOption a (orOption b c) := by
  cases a <;> rfl

theorem orOption_none_right {α : Type} (a : Option α) :
    orOption a none = a := by
  cases a <;> rfl

theorem getLast?_cons_orOption {α : Type} (x : α) (l : List α) :
    (x :: l).getLast? = orOption l.getLast? (some x) := by
  cases l with
  | nil => rfl
  | cons y ys =>
    rw [List.getLast?_cons_cons]
    cases h : (y :: ys).getLast? with
    | none =>
      exact absurd (List.getLast?_eq_none_iff.1 h) (by simp)
    | some a => rfl

theorem getValue_upsert_self {α : Type} (m : List (String × α))
    (k : String) (v : α) : getValue (upsert m k v) k = some v := by
  induction m with
  | nil => simp [upsert, getValue]
  | cons q rest ih =>
    by_cases hq : q.1 = k
    · simp [upsert, hq, getValue]
    · simp [upsert, hq, getValue, ih]

theorem getValue_upsert_ne {α : Type} (m : List (String × α))
    (k t : String) (v : α) (h : k ≠ t) :
    getValue (upsert m k v) t = getValue m t := by
  induction m with
  | nil => simp [upsert, getValue, h]
  | cons q rest ih =>
    by_cases hq : q.1 = k
    · simp [upsert, hq, getValue, h]
    · simp [upsert, hq, getValue, ih]

theorem lastTagged_nil (t : String) : lastTagged t [] = none := rfl

theorem lastTagged_cons_of_tag (t : String) (name : String)
    (rest : List String) (h : tagOf name = some t) :
    lastTagged t (name :: rest) =
      orOption (lastTagged t rest) (some (baseOf name)) := by
  simp only [lastTagged, List.filterMap_cons, h, if_pos rfl]
  exact getLast?_cons_orOption _ _

theorem lastTagged_cons_of_ne (t : String) (name : String)
    (rest : List String) (h : tagOf name ≠ some t) :
    lastTagged t (name :: rest) = lastTagged t rest := by
  simp only [lastTagged, List.filterMap_cons, if_neg h]

theorem lastTagged_eq_none_iff (t : String) (names : List String) :
    lastTagged t names = none ↔ ∀ n ∈ names, tagOf n ≠ some t := by
  unfold lastTagged
  rw [List.getLast?_eq_none_iff, List.filterMap_eq_nil_iff]
  constructor
  · intro h n hn ht
    have := h n hn
    rw [if_pos ht] at this
    exact Option.some_ne_none _ this
  · intro h n hn
    rw [if_neg (h n hn)]

theorem mem_of_getLast_eq_some {α : Type} :
    ∀ (l : List α) (a : α), l.getLast? = some a → a ∈ l := by
  intro l
  induction l with
  | nil => intro a h; simp [List.getLast?] at h
  | cons x xs ih =>
    intro a h
    rw [getLast?_cons_orOption] at h
    cases hx : xs.getLast? with
    | none =>
      rw [hx] at h
      have : x = a := by simpa [orOption] using h
      exact this ▸ List.mem_cons_self x xs
    | some b =>
      rw [hx] at h
      have hb : b = a := by simpa [orOption] using h
      exact List.mem_cons_of_mem x (hb ▸ ih b hx)

theorem lastTagged_spec (t : String) (names : List String) (b : String)
    (h : lastTagged t names = some b) :
    ∃ n ∈ names, tagOf n = some t ∧ baseOf n = b := by
  unfold lastTagged at h
  have hmem : b ∈ List.filterMap
      (fun n => if tagOf n = some t then some (baseOf n) else none) names :=
    mem_of_getLast_eq_some _ b h
  rcases List.mem_filterMap.1 hmem with ⟨n, hn, hfn⟩
  by_cases ht : tagOf n = some t
  · rw [if_pos ht] at hfn
    exact ⟨n, hn, ht, Option.some.inj hfn⟩
  · rw [if_neg ht] at hfn
    exact absurd hfn (Option.some_ne_none b).symm

theorem buttonScanMulti_getValue (t : String) (names : List String) :
    ∀ (ii : ℕ) (bn : List (String × String)) (fb : String),
      getValue (buttonScanMulti names ii bn fb).1 t =
        orOption (lastTagged t names) (getValue bn t) := by
  induction names with
  | nil =>
    intro ii bn fb
    simp [buttonScanMulti, lastTagged, orOption]
  | cons name rest ih =>
    intro ii bn fb
    simp only [buttonScanMulti]
    cases hc : splitOnChar ':' name.toList with
    | nil => exact absurd hc (splitOnChar_ne_nil ':' name.toList)
    | cons c0 crest =>
      cases crest with
      | nil =>
        have htag : tagOf name = none := by unfold tagOf; rw [hc]
        rw [if_neg (show ¬ (([c0] : List (List Char)).length = 2) by simp)]
        rw [ih (ii + 1) bn _]
        rw [lastTagged_cons_of_ne t name rest (by simp [htag])]
      | cons c1 crest2 =>
        cases crest2 with
        | nil =>
          have htag : tagOf name = some (String.mk c0) := by
            unfold tagOf; rw [hc]
          have hbase : baseOf name = String.mk c1 := by
            unfold baseOf; rw [hc]; rfl
          have hhead : ([c0, c1].headD ([] : List Char)) = c0 := rfl
          have hlast : ([c0, c1].getLastD ([] : List Char)) = c1 := rfl
          rw [if_pos
            (show (([c0, c1] : List (List Char)).length = 2) from rfl)]
          rw [ih (ii + 1) _ _]
          rw [hhead, hlast]
          by_cases ht : String.mk c0 = t
          · rw [lastTagged_cons_of_tag t name rest (by rw [htag, ht])]
            rw [orOption_assoc, hbase, ht, getValue_upsert_self]
            rfl
          · rw [lastTagged_cons_of_ne t name rest (by simp [htag, ht])]
            rw [getValue_upsert_ne bn _ t _ ht]
        | cons c2 crest3 =>
          have htag : tagOf name = none := by unfold tagOf; rw [hc]
          rw [if_neg
            (show ¬ ((c0 :: c1 :: c2 :: crest3).length = 2) by
              simp only [List.length_cons]; omega)]
          rw [ih (ii + 1) bn _]
          rw [lastTagged_cons_of_ne t name rest (by simp [htag])]

theorem buttonScanMulti_snd_of_pos (names : List String) :
    ∀ (ii : ℕ) (bn : List (String × String)) (fb : String), ii ≠ 0 →
      (buttonScanMulti names ii bn fb).2 = fb := by
  induction names with
  | nil => intro ii bn fb _; rfl
  | cons name rest ih =>
    intro ii bn fb h
    simp only [buttonScanMulti, if_neg h]
    exact ih (ii + 1) _ _ (by omega)

theorem buttonScanMulti_snd_zero (name : String) (rest : List String)
    (bn : List (String × String)) (fb : String) :
    (buttonScanMulti (name :: rest) 0 bn fb).2 = baseOf name := by
  simp only [buttonScanMulti, if_pos rfl]
  rw [buttonScanMulti_snd_of_pos rest 1 _ _ (by omega)]
  rfl

theorem genButtonSlots_single (n : String) :
    genButtonSlots [n] =
      Except.ok (baseOf n,
        if tagOf n = some "down" then some (baseOf n) else none) := by
  simp only [genButtonSlots, buttonScanSingle]
  cases hc : splitOnChar ':' n.toList with
  | nil => exact absurd hc (splitOnChar_ne_nil ':' n.toList)
  | cons c0 crest =>
    cases crest with
    | nil =>
      have htag : tagOf n = none := by unfold tagOf; rw [hc]
      have hbase : baseOf n = String.mk c0 := by
        unfold baseOf; rw [hc]; rfl
      rw [if_neg (show ¬ (([c0] : List (List Char)).length = 2) by simp)]
      simp [htag, hbase, getValue]
    | cons c1 crest2 =>
      cases crest2 with
      | nil =>
        have htag : tagOf n = some (String.mk c0) := by
          unfold tagOf; rw [hc]
        have hbase : baseOf n = String.mk c1 := by
          unfold baseOf; rw [hc]; rfl
        have hhead : ([c0, c1].headD ([] : List Char)) = c0 := rfl
        have hlast : ([c0, c1].getLastD ([] : List Char)) = c1 := rfl
        rw [if_pos
          (show (([c0, c1] : List (List Char)).length = 2) from rfl)]
        rw [hhead, hlast]
        by_cases hup : String.mk c0 = "up"
        · have hnd : String.mk c0 ≠ "down" := by
            rw [hup]; decide
          simp [getValue, hup, hbase, htag, hnd]
        · by_cases hdown : String.mk c0 = "down"
          · simp [getValue, hup, hdown, hbase, htag]
          · simp [getValue, hup, hdown, hbase, htag]
      | cons c2 crest3 =>
        have htag : tagOf n = none := by unfold tagOf; rw [hc]
        have hbase : baseOf n = String.mk ((c2 :: crest3).getLastD c1) := by
          unfold baseOf
          rw [hc, List.getLastD_cons, List.getLastD_cons]
        rw [if_neg
          (show ¬ ((c0 :: c1 :: c2 :: crest3).length = 2) by
            simp only [List.length_cons]; omega)]
        obtain ⟨z, hz⟩ : ∃ z, (c2 :: crest3).getLast? = some z := by
          rw [getLast?_cons_orOption]
          cases crest3.getLast? with
          | none => exact ⟨c2, rfl⟩
          | some b => exact ⟨b, rfl⟩
        simp [htag, hbase, getValue, hz]

theorem genButtonSlots_multi (a b : String) (rest : List String) :
    genButtonSlots (a :: b :: rest) =
      Except.ok ((lastTagged "up" (a :: b :: rest)).getD (baseOf a),
        lastTagged "down" (a :: b :: rest)) := by
  simp only [genButtonSlots]
  rw [buttonScanMulti_getValue "up" (a :: b :: rest) 0 [] ""]
  rw [buttonScanMulti_getValue "down" (a :: b :: rest) 0 [] ""]
  rw [buttonScanMulti_snd_zero]
  have hnone : getValue ([] : List (String × String)) "up" = none := rfl
  have hnone2 : getValue ([] : List (String × String)) "down" = none := rfl
  rw [hnone, hnone2, orOption_none_right, orOption_none_right]

/-- C9: the button builder's slot resolution fails exactly when the
tagged container has zero children; with a single child that child's
base name becomes the upnode; with multiple children a child tagged `up`
supplies the upnode (the last such child when several are tagged) and
otherwise the first child in document order does; and the downnode field
is present iff some child is tagged `down`. -/
theorem C9_button_slots :
    exceptOk (genButtonSlots []) = false ∧
    (∀ names : List String, names ≠ [] →
      exceptOk (genButtonSlots names) = true) ∧
    (∀ n : String, genButtonSlots [n] =
      Except.ok (baseOf n,
        if tagOf n = some "down" then some (baseOf n) else none)) ∧
    (∀ (a b : String) (rest : List String),
      genButtonSlots (a :: b :: rest) =
        Except.ok ((lastTagged "up" (a :: b :: rest)).getD (baseOf a),
          lastTagged "down" (a :: b :: rest))) ∧
    (∀ (names : List String) (up : String) (down : Option String),
      genButtonSlots names = Except.ok (up, down) →
      (down ≠ none ↔ ∃ n ∈ names, tagOf n = some "down")) ∧
    (∀ (a b : String) (rest : List String) (up : String)
      (down : Option String),
      genButtonSlots (a :: b :: rest) = Except.ok (up, down) →
      ((∃ n ∈ a :: b :: rest, tagOf n = some "up") →
        ∃ n ∈ a :: b :: rest, tagOf n = some "up" ∧ baseOf n = up) ∧
      ((¬ ∃ n ∈ a :: b :: rest, tagOf n = some "up") → up = baseOf a)) := by
  refine ⟨rfl, ?_, genButtonSlots_single, genButtonSlots_multi, ?_, ?_⟩
  · intro names h
    match names with
    | [n] => rfl
    | a :: b :: rest => rfl
  · intro names up down h
    match names with
    | [] => exact absurd h (by simp [genButtonSlots])
    | [n] =>
      rw [genButtonSlots_single n] at h
      have hdown := congrArg
        (fun e => match e with
          | Except.ok p => p.2
          | Except.error _ => none) h
      simp only at hdown
      constructor
      · intro hne
        by_cases ht : tagOf n = some "down"
        · exact ⟨n, by simp, ht⟩
        · rw [if_neg ht] at hdown
          exact absurd hdown.symm hne
      · rintro ⟨m, hm, ht⟩
        have hmn : m = n := by simpa using hm
        rw [if_pos (hmn ▸ ht)] at hdown
        rw [← hdown]
        simp
    | a :: b :: rest =>
      rw [genButtonSlots_multi a b rest] at h
      have hdown := congrArg
        (fun e => match e with
          | Except.ok p => p.2
          | Except.error _ => none) h
      simp only at hdown
      rw [← hdown]
      constructor
      · intro hne
        cases hlt : lastTagged "down" (a :: b :: rest) with
        | none => exact absurd hlt hne
        | some v =>
          rcases lastTagged_spec "down" (a :: b :: rest) v hlt with
            ⟨n, hn, ht, _⟩
          exact ⟨n, hn, ht⟩
      · rintro ⟨m, hm, ht⟩ hnone
        exact (lastTagged_eq_none_iff "down" (a :: b :: rest)).1 hnone
          m hm ht
  · intro a b rest up down h
    rw [genButtonSlots_multi a b rest] at h
    have hup := congrArg
      (fun e => match e with
        | Except.ok p => p.1
        | Except.error _ => "") h
    simp only at hup
    constructor
    · rintro ⟨m, hm, ht⟩
      cases hlt : lastTagged "up" (a :: b :: rest) with
      | none =>
        exact absurd ((lastTagged_eq_none_iff "up" _).1 hlt m hm ht)
          (by simp)
      | some v =>
        rcases lastTagged_spec "up" (a :: b :: rest) v hlt with
          ⟨n, hn, htn, hbn⟩
        refine ⟨n, hn, htn, ?_⟩
        rw [hbn, ← hup, hlt]
        rfl
    · intro hnone
      have hlt : lastTagged "up" (a :: b :: rest) = none := by
        cases hlt : lastTagged "up" (a :: b :: rest) with
        | none => rfl
        | some v =>
          rcases lastTagged_spec "up" (a :: b :: rest) v hlt with
            ⟨n, hn, htn, _⟩
          exact absurd ⟨n, hn, htn⟩ hnone
      rw [← hup, hlt]
      rfl

/-- Concrete instance of `C9_button_slots`: a two-child button resolves
its explicitly tagged `up` child and omits the down node. -/
theorem C9_button_slots_witness :
    exceptOk (genButtonSlots ["a", "up:u"]) = true :=
  C9_button_slots.2.1 ["a", "up:u"] (by simp)

end FUGL
